import Mathlib

/-
Verification of the SVM retriever in src/langchain/retrievers/svm.py.

The module has three parts:
  - create_index: embeds a batch of texts concurrently (ThreadPoolExecutor.map)
    and stacks the vectors into a matrix, one row per text, in input order;
  - retrieve: builds the augmented matrix [query] ++ index, fits an external
    LinearSVC, takes the decision-function scores of every row, argsorts them
    in descending order, applies a single tie-break swap so that row 0 (the
    query) sits at position 0, and min-max-normalizes the scores with a tol
    term in the denominator;
  - SVMRetriever.get_relevant_documents: takes sorted_ix[1 : k+1], filters by
    an optional inclusive relevancy threshold on the normalized score, and maps
    each surviving row r to texts[r - 1].

The LinearSVC solver is an external, non-deterministic component; its output,
the vector of decision-function scores over the rows of the augmented matrix,
is modelled as a free parameter sims : List Rat with sims.length =
texts.length + 1 (row 0 is the query).  Scores are modelled over the exact
rationals.  np.argsort uses an unstable quicksort, so the order of tied
indices is unspecified; argsortDesc below fixes one comparison sort as the
deterministic model, and IsArgsortDesc captures exactly the properties any
np.argsort output has, for claims that quantify over solver/sort
non-determinism.
-/

namespace SvmSpec

/-- Empty-string default used for out-of-range list reads of texts. -/
def emptyStr : String := ""

/-- Model of np.min over the similarity vector (np.min errors on an empty
array; the 0 default is never reached under the claims' preconditions). -/
def npMin : List ℚ → ℚ
  | [] => 0
  | a :: rest => rest.foldl min a

/-- Model of np.max over the similarity vector. -/
def npMax : List ℚ → ℚ
  | [] => 0
  | a :: rest => rest.foldl max a

/-- Model of sorted_ix = np.argsort(-similarities): the row indices
0 .. sims.length - 1 sorted by non-increasing score.  np.argsort's tie order
is unspecified (unstable quicksort), so one concrete comparison sort is used
as the deterministic model. -/
def argsortDesc (sims : List ℚ) : List ℕ :=
  (List.range sims.length).insertionSort (fun i j => sims.getD j 0 ≤ sims.getD i 0)

/-- Model of the determinism correction in retrieve:
zero_index = np.where(sorted_ix == 0)[0][0]; if zero_index != 0, swap
sorted_ix[0] and sorted_ix[zero_index]. -/
def tieBreakSwap (l : List ℕ) : List ℕ :=
  let zero_index := l.indexOf 0
  if zero_index = 0 then l
  else (l.set 0 (l.getD zero_index 0)).set zero_index (l.getD 0 0)

/-- Model of normalized_similarities = (similarities - np.min(similarities)) /
(np.max(similarities) - np.min(similarities) + tol). -/
def normalizedSimilarities (sims : List ℚ) (tol : ℚ) : List ℚ :=
  let denominator := npMax sims - npMin sims + tol
  sims.map (fun s => (s - npMin sims) / denominator)

/-- Model of the tail of retrieve, parametrized by the argsort output
sorted_ix (to let claims quantify over np.argsort's tie non-determinism):
returns (tie-break-corrected sorted_ix, normalized similarities). -/
def retrieveWith (sims : List ℚ) (sorted_ix : List ℕ) (tol : ℚ) :
    List ℕ × List ℚ :=
  (tieBreakSwap sorted_ix, normalizedSimilarities sims tol)

/-- Model of retrieve(query_embeds, index, max_iter, tol, C), downstream of
the external classifier: sims stands for clf.decision_function(x) over the
augmented matrix x = [query_embeds] ++ index. -/
def retrieve (sims : List ℚ) (tol : ℚ) : List ℕ × List ℚ :=
  retrieveWith sims (argsortDesc sims) tol

/-- Default tol of retrieve, 1e-6, as an exact rational. -/
def defaultTol : ℚ := 1 / 1000000

/-- Model of the threshold test in get_relevant_documents:
relevancy_threshold is None, or normalized_similarities[row] >= threshold. -/
def passesThreshold (threshold : Option ℚ) (normalized : List ℚ) (row : ℕ) :
    Bool :=
  match threshold with
  | none => true
  | some t => decide (t ≤ normalized.getD row 0)

/-- Rows sorted_ix[1 : k + 1] considered by the loop of
get_relevant_documents, taken from the tie-break-corrected order. -/
def takenRows (k : ℕ) (sims : List ℚ) (sorted_ix : List ℕ) (tol : ℚ) :
    List ℕ :=
  (((retrieveWith sims sorted_ix tol).1).drop 1).take k

/-- Rows that survive the relevancy-threshold filter, in taken order (the
loop appends exactly these rows' documents, in this order). -/
def resultRows (k : ℕ) (threshold : Option ℚ) (sims : List ℚ)
    (sorted_ix : List ℕ) (tol : ℚ) : List ℕ :=
  (takenRows k sims sorted_ix tol).filter
    (passesThreshold threshold (retrieveWith sims sorted_ix tol).2)

/-- Model of the loop body of get_relevant_documents, parametrized by the
argsort output: each surviving row r contributes
Document(page_content=self.texts[row - 1]). -/
def getRelevantWith (texts : List String) (k : ℕ) (threshold : Option ℚ)
    (sims : List ℚ) (sorted_ix : List ℕ) (tol : ℚ) : List String :=
  (resultRows k threshold sims sorted_ix tol).map
    (fun row => texts.getD (row - 1) emptyStr)

/-- Model of SVMRetriever.get_relevant_documents, downstream of the external
classifier: retrieve is called with the default tol = 1e-6. -/
def getRelevantDocuments (texts : List String) (k : ℕ)
    (threshold : Option ℚ) (sims : List ℚ) : List String :=
  getRelevantWith texts k threshold sims (argsortDesc sims) defaultTol

/-- Model of create_index(contexts, embeddings): one embedding per text, in
input order (the semantics of list(executor.map(embed, contexts))). -/
def create_index (embed : String → List ℚ) (contexts : List String) :
    List (List ℚ) :=
  contexts.map embed

/-- Model of the thread pool executing the embedding calls of create_index in
an arbitrary completion order: schedule lists the input indices in the order
their tasks complete, and each completed task stores its vector at its own
input index (scatter-gather). -/
def scatterGather (embed : String → List ℚ) (contexts : List String)
    (schedule : List ℕ) : List (Option (List ℚ)) :=
  schedule.foldl
    (fun acc i => acc.set i (some (embed (contexts.getD i emptyStr))))
    (List.replicate contexts.length none)

/-- Model of create_index with a fallible embedder: iterating
executor.map(embed, contexts) yields results in input order and re-raises the
exception of a failed call at its position; list(...) therefore propagates
the error of the (first) failed call and builds no partial result. -/
def create_index_exc {E V : Type} (embed : String → Except E V) :
    List String → Except E (List V)
  | [] => Except.ok []
  | c :: cs =>
    match embed c with
    | Except.error e => Except.error e
    | Except.ok v =>
      match create_index_exc embed cs with
      | Except.error e => Except.error e
      | Except.ok vs => Except.ok (v :: vs)

/-- Specification of what any np.argsort(-sims) output is, whatever the
internal (unstable, non-deterministic) sort does with ties: a permutation of
the row indices along which scores are non-increasing. -/
abbrev IsArgsortDesc (sims : List ℚ) (l : List ℕ) : Prop :=
  l.Perm (List.range sims.length) ∧
    l.Pairwise (fun i j => sims.getD j 0 ≤ sims.getD i 0)

/-! Helper lemmas about npMin and npMax. -/

theorem foldl_min_le_init (l : List ℚ) : ∀ a : ℚ, l.foldl min a ≤ a := by
  induction l with
  | nil => intro a; simp
  | cons b t ih =>
    intro a
    calc (b :: t).foldl min a = t.foldl min (min a b) := rfl
    _ ≤ min a b := ih (min a b)
    _ ≤ a := min_le_left a b

theorem foldl_min_le_mem (l : List ℚ) :
    ∀ (a x : ℚ), x ∈ l → l.foldl min a ≤ x := by
  induction l with
  | nil => intro a x hx; simp at hx
  | cons b t ih =>
    intro a x hx
    rcases List.mem_cons.mp hx with h | h
    · subst h
      calc (x :: t).foldl min a = t.foldl min (min a x) := rfl
      _ ≤ min a x := foldl_min_le_init t (min a x)
      _ ≤ x := min_le_right a x
    · exact ih (min a b) x h

theorem npMin_le {sims : List ℚ} {x : ℚ} (hx : x ∈ sims) : npMin sims ≤ x := by
  cases sims with
  | nil => simp at hx
  | cons a rest =>
    rcases List.mem_cons.mp hx with h | h
    · subst h; exact foldl_min_le_init rest x
    · exact foldl_min_le_mem rest a x h

theorem init_le_foldl_max (l : List ℚ) : ∀ a : ℚ, a ≤ l.foldl max a := by
  induction l with
  | nil => intro a; simp
  | cons b t ih =>
    intro a
    calc a ≤ max a b := le_max_left a b
    _ ≤ t.foldl max (max a b) := ih (max a b)
    _ = (b :: t).foldl max a := rfl

theorem mem_le_foldl_max (l : List ℚ) :
    ∀ (a x : ℚ), x ∈ l → x ≤ l.foldl max a := by
  induction l with
  | nil => intro a x hx; simp at hx
  | cons b t ih =>
    intro a x hx
    rcases List.mem_cons.mp hx with h | h
    · subst h
      calc x ≤ max a x := le_max_right a x
      _ ≤ t.foldl max (max a x) := init_le_foldl_max t (max a x)
      _ = (x :: t).foldl max a := rfl
    · exact ih (max a b) x h

theorem le_npMax {sims : List ℚ} {x : ℚ} (hx : x ∈ sims) : x ≤ npMax sims := by
  cases sims with
  | nil => simp at hx
  | cons a rest =>
    rcases List.mem_cons.mp hx with h | h
    · subst h; exact init_le_foldl_max rest x
    · exact mem_le_foldl_max rest a x h

/-! Helper lemmas about argsortDesc and tieBreakSwap. -/

theorem argsortDesc_perm (sims : List ℚ) :
    (argsortDesc sims).Perm (List.range sims.length) :=
  List.perm_insertionSort _ _

theorem argsortDesc_pairwise (sims : List ℚ) :
    (argsortDesc sims).Pairwise (fun i j => sims.getD j 0 ≤ sims.getD i 0) := by
  haveI : IsTotal ℕ (fun i j => sims.getD j 0 ≤ sims.getD i 0) :=
    ⟨fun a b => le_total _ _⟩
  haveI : IsTrans ℕ (fun i j => sims.getD j 0 ≤ sims.getD i 0) :=
    ⟨fun a b c hab hbc => le_trans hbc hab⟩
  exact List.sorted_insertionSort _ _

theorem zero_mem_argsortDesc {sims : List ℚ} (hne : sims ≠ []) :
    0 ∈ argsortDesc sims :=
  (argsortDesc_perm sims).mem_iff.mpr
    (List.mem_range.mpr (List.length_pos.mpr hne))

theorem tieBreakSwap_eq (l : List ℕ) :
    tieBreakSwap l =
      if l.indexOf 0 = 0 then l
      else (l.set 0 (l.getD (l.indexOf 0) 0)).set (l.indexOf 0)
        (l.getD 0 0) := rfl

theorem tieBreakSwap_length (l : List ℕ) :
    (tieBreakSwap l).length = l.length := by
  rw [tieBreakSwap_eq]
  split
  · rfl
  · simp

theorem tieBreakSwap_getD (l : List ℕ) (h0 : 0 ∈ l) (d p : ℕ)
    (hp : p < l.length) :
    (tieBreakSwap l).getD p d =
      if p = 0 then 0
      else if p = l.indexOf 0 then l.getD 0 d else l.getD p d := by
  have hlpos : 0 < l.length := List.length_pos.mpr (List.ne_nil_of_mem h0)
  have hz : l.indexOf 0 < l.length := List.indexOf_lt_length.mpr h0
  have hzval : l[l.indexOf 0] = 0 := List.getElem_indexOf hz
  rw [tieBreakSwap_eq]
  by_cases hc : l.indexOf 0 = 0
  · rw [if_pos hc]
    by_cases hp0 : p = 0
    · subst hp0
      rw [if_pos rfl, List.getD_eq_getElem l d hlpos]
      simp only [hc] at hzval
      exact hzval
    · rw [if_neg hp0, if_neg (fun h => hp0 (h.trans hc))]
  · rw [if_neg hc]
    have hlen2 :
        ((l.set 0 (l.getD (l.indexOf 0) 0)).set (l.indexOf 0)
          (l.getD 0 0)).length = l.length := by simp
    rw [List.getD_eq_getElem _ d (by rw [hlen2]; exact hp)]
    by_cases hp0 : p = 0
    · subst hp0
      rw [if_pos rfl]
      rw [List.getElem_set_ne hc]
      rw [List.getElem_set_self]
      rw [List.getD_eq_getElem l 0 hz]
      exact hzval
    · rw [if_neg hp0]
      by_cases hpz : p = l.indexOf 0
      · subst hpz
        rw [if_pos rfl]
        rw [List.getElem_set_self]
        rw [List.getD_eq_getElem l 0 hlpos, List.getD_eq_getElem l d hlpos]
      · rw [if_neg hpz]
        rw [List.getElem_set_ne (fun h => hpz h.symm)]
        rw [List.getElem_set_ne (fun h => hp0 h.symm)]
        rw [List.getD_eq_getElem l d hp]

theorem tieBreakSwap_perm (l : List ℕ) (h0 : 0 ∈ l) :
    (tieBreakSwap l).Perm l := by
  rw [tieBreakSwap_eq]
  by_cases hc : l.indexOf 0 = 0
  · rw [if_pos hc]
  · rw [if_neg hc]
    obtain ⟨a, t, rfl⟩ : ∃ a t, l = a :: t := by
      cases l with
      | nil => simp at h0
      | cons a t => exact ⟨a, t, rfl⟩
    have hz : (a :: t).indexOf 0 < (a :: t).length :=
      List.indexOf_lt_length.mpr h0
    obtain ⟨z1, hz1⟩ : ∃ z1, (a :: t).indexOf 0 = z1 + 1 :=
      ⟨(a :: t).indexOf 0 - 1, by omega⟩
    have hz1lt : z1 < t.length := by
      rw [hz1] at hz
      simpa using hz
    have htz1 : t[z1] = 0 := by
      have h := List.getElem_indexOf hz
      simp only [hz1] at h
      simpa using h
    rw [hz1]
    have hset0 : (a :: t).set 0 ((a :: t).getD (z1 + 1) 0) =
        t.getD z1 0 :: t := by
      simp [List.getD]
    rw [hset0]
    have hgd : t.getD z1 0 = 0 := by
      rw [List.getD_eq_getElem t 0 hz1lt]
      exact htz1
    rw [hgd]
    have hset1 : (0 :: t).set (z1 + 1) ((a :: t).getD 0 0) =
        0 :: t.set z1 a := by
      simp [List.getD]
    rw [hset1]
    have hdecomp : t = t.take z1 ++ 0 :: t.drop (z1 + 1) := by
      conv_lhs => rw [← List.take_append_drop z1 t]
      congr 1
      rw [← List.getElem_cons_drop t z1 hz1lt, htz1]
    have hsetdecomp : t.set z1 a = t.take z1 ++ a :: t.drop (z1 + 1) := by
      rw [List.set_eq_take_append_cons_drop, if_pos hz1lt]
    rw [hsetdecomp]
    have p1 : (0 :: (t.take z1 ++ a :: t.drop (z1 + 1))).Perm
        (0 :: a :: (t.take z1 ++ t.drop (z1 + 1))) :=
      List.Perm.cons 0 List.perm_middle
    have p2 : (0 :: a :: (t.take z1 ++ t.drop (z1 + 1))).Perm
        (a :: 0 :: (t.take z1 ++ t.drop (z1 + 1))) :=
      List.Perm.swap a 0 _
    have p3 : (a :: 0 :: (t.take z1 ++ t.drop (z1 + 1))).Perm
        (a :: (t.take z1 ++ 0 :: t.drop (z1 + 1))) :=
      List.Perm.cons a List.perm_middle.symm
    have hfin := (p1.trans p2).trans p3
    rw [← hdecomp] at hfin
    exact hfin

theorem tbs_argsort_perm {sims : List ℚ} (hne : sims ≠ []) :
    (tieBreakSwap (argsortDesc sims)).Perm (List.range sims.length) :=
  (tieBreakSwap_perm _ (zero_mem_argsortDesc hne)).trans (argsortDesc_perm sims)

theorem tbs_argsort_nodup {sims : List ℚ} (hne : sims ≠ []) :
    (tieBreakSwap (argsortDesc sims)).Nodup :=
  ((tbs_argsort_perm hne).symm).nodup (List.nodup_range _)

theorem tbs_argsort_getD_zero {sims : List ℚ} (hne : sims ≠ []) (d : ℕ) :
    (tieBreakSwap (argsortDesc sims)).getD 0 d = 0 := by
  have h0 := zero_mem_argsortDesc hne
  have hlpos : 0 < (argsortDesc sims).length :=
    List.length_pos.mpr (List.ne_nil_of_mem h0)
  rw [tieBreakSwap_getD _ h0 d 0 hlpos]
  simp

theorem takenRows_sublist (k : ℕ) (sims : List ℚ) (sorted_ix : List ℕ)
    (tol : ℚ) :
    (takenRows k sims sorted_ix tol).Sublist (tieBreakSwap sorted_ix) :=
  (List.take_sublist _ _).trans (List.drop_sublist _ _)

theorem zero_not_mem_takenRows {k : ℕ} {sims : List ℚ} {tol : ℚ}
    (hne : sims ≠ []) :
    0 ∉ takenRows k sims (argsortDesc sims) tol := by
  intro hmem
  have hmem2 : 0 ∈ (tieBreakSwap (argsortDesc sims)).drop 1 :=
    (List.take_sublist _ _).subset hmem
  have hnodup := tbs_argsort_nodup hne
  have hhead := tbs_argsort_getD_zero hne 1
  cases hL : tieBreakSwap (argsortDesc sims) with
  | nil =>
    rw [hL] at hhead
    simp [List.getD] at hhead
  | cons a t =>
    rw [hL] at hmem2 hnodup hhead
    simp [List.getD] at hhead
    subst hhead
    simp at hmem2
    exact (List.nodup_cons.mp hnodup).1 hmem2

theorem takenRows_lt_length {k : ℕ} {sims : List ℚ} {tol : ℚ} {r : ℕ}
    (hne : sims ≠ [])
    (hmem : r ∈ takenRows k sims (argsortDesc sims) tol) : r < sims.length := by
  have hmem2 : r ∈ tieBreakSwap (argsortDesc sims) :=
    (takenRows_sublist k sims (argsortDesc sims) tol).subset hmem
  exact List.mem_range.mp ((tbs_argsort_perm hne).mem_iff.mp hmem2)

theorem takenRows_pos {k : ℕ} {sims : List ℚ} {tol : ℚ} {r : ℕ}
    (hne : sims ≠ [])
    (hmem : r ∈ takenRows k sims (argsortDesc sims) tol) : 1 ≤ r := by
  rcases Nat.eq_zero_or_pos r with h | h
  · subst h
    exact absurd hmem (zero_not_mem_takenRows hne)
  · exact h

/-- C1: for every query vector and every non-empty index, the ordered index
sequence returned by retrieve places the query row (AugmentedMatrix row 0) at
position 0: the engine locates row 0 within sorted_ix (at position
zero_index = (argsortDesc sims).indexOf 0) and, if it is not already first,
swaps it with the entry at position 0, moving the previous occupant of
position 0 into row 0's old slot; every other position is untouched. -/
theorem C1_query_row_first (sims : List ℚ) (tol : ℚ) (hne : sims ≠ []) :
    (retrieve sims tol).1.getD 0 1 = 0 ∧
    ((argsortDesc sims).indexOf 0 = 0 →
      (retrieve sims tol).1 = argsortDesc sims) ∧
    ((argsortDesc sims).indexOf 0 ≠ 0 →
      (retrieve sims tol).1.getD ((argsortDesc sims).indexOf 0) 1 =
        (argsortDesc sims).getD 0 1 ∧
      ∀ j, j ≠ 0 → j ≠ (argsortDesc sims).indexOf 0 →
        (retrieve sims tol).1.getD j 1 = (argsortDesc sims).getD j 1) := by
  have h0 := zero_mem_argsortDesc hne
  have hz : (argsortDesc sims).indexOf 0 < (argsortDesc sims).length :=
    List.indexOf_lt_length.mpr h0
  refine ⟨tbs_argsort_getD_zero hne 1, ?_, ?_⟩
  · intro hc
    show tieBreakSwap (argsortDesc sims) = argsortDesc sims
    rw [tieBreakSwap_eq, if_pos hc]
  · intro hc
    constructor
    · show (tieBreakSwap (argsortDesc sims)).getD _ 1 = _
      rw [tieBreakSwap_getD _ h0 1 _ hz, if_neg hc, if_pos rfl]
    · intro j hj0 hjz
      show (tieBreakSwap (argsortDesc sims)).getD j 1 = _
      by_cases hjlen : j < (argsortDesc sims).length
      · rw [tieBreakSwap_getD _ h0 1 j hjlen, if_neg hj0, if_neg hjz]
      · have h1 : (tieBreakSwap (argsortDesc sims)).getD j 1 = 1 := by
          apply List.getD_eq_default
          rw [tieBreakSwap_length]
          omega
        have h2 : (argsortDesc sims).getD j 1 = 1 :=
          List.getD_eq_default _ _ (by omega)
        rw [h1, h2]

/-- Witness for C1 at sims = [1, 2]: the hypothesis sims ≠ [] holds and the
tie-break-corrected order starts with row 0. -/
theorem C1_witness :
    (([1, 2] : List ℚ) ≠ []) ∧ (retrieve [1, 2] 0).1.getD 0 1 = 0 :=
  ⟨by decide, (C1_query_row_first [1, 2] 0 (by decide)).1⟩

/-- C2: for every query and index with tol > 0, every normalized similarity
returned by retrieve lies in [0, 1): the denominator
npMax sims - npMin sims + tol is strictly positive even when all raw
decision scores are equal, each normalized score is the raw score shifted by
the minimum and divided by that denominator, and every value is at least 0
and strictly below 1. -/
theorem C2_normalized_unit_interval (sims : List ℚ) (tol : ℚ)
    (htol : 0 < tol) (hne : sims ≠ []) :
    0 < npMax sims - npMin sims + tol ∧
    ∀ v ∈ (retrieve sims tol).2, 0 ≤ v ∧ v < 1 := by
  obtain ⟨s0, hs0⟩ := List.exists_mem_of_ne_nil sims hne
  have hminmax : npMin sims ≤ npMax sims := le_trans (npMin_le hs0) (le_npMax hs0)
  have hden : 0 < npMax sims - npMin sims + tol := by linarith
  refine ⟨hden, ?_⟩
  intro v hv
  have hv2 : v ∈ normalizedSimilarities sims tol := hv
  obtain ⟨s, hs, hveq⟩ := List.mem_map.mp hv2
  have hmin : npMin sims ≤ s := npMin_le hs
  have hmax : s ≤ npMax sims := le_npMax hs
  constructor
  · rw [← hveq]
    exact div_nonneg (by linarith) (le_of_lt hden)
  · rw [← hveq]
    rw [div_lt_one hden]
    linarith

/-- Witness for C2 at sims = [1, 1] (all scores equal) and tol = 1: the
denominator is positive and both normalized scores lie in [0, 1). -/
theorem C2_witness :
    (0 : ℚ) < 1 ∧ (([1, 1] : List ℚ) ≠ []) ∧
    (0 < npMax [1, 1] - npMin [1, 1] + 1 ∧
      ∀ v ∈ (retrieve [1, 1] 1).2, 0 ≤ v ∧ v < 1) :=
  ⟨by norm_num, by decide,
    C2_normalized_unit_interval [1, 1] 1 (by norm_num) (by decide)⟩

theorem argsortDesc_length (sims : List ℚ) :
    (argsortDesc sims).length = sims.length := by
  unfold argsortDesc
  rw [List.length_insertionSort, List.length_range]

theorem normalizedSimilarities_length (sims : List ℚ) (tol : ℚ) :
    (normalizedSimilarities sims tol).length = sims.length := by
  unfold normalizedSimilarities
  rw [List.length_map]

/-- C3: for every non-empty passage set, every query, and every k, the query
row itself is never among the returned passages: row 0 is not among the rows
taken from sorted_ix[1 : k+1] after the tie-break, and every returned
document is texts[r - 1] for some taken row r with r at least 1. -/
theorem C3_query_excluded (texts : List String) (k : ℕ) (threshold : Option ℚ)
    (sims : List ℚ) (hlen : sims.length = texts.length + 1) :
    0 ∉ takenRows k sims (argsortDesc sims) defaultTol ∧
    ∀ d ∈ getRelevantDocuments texts k threshold sims,
      ∃ r ∈ takenRows k sims (argsortDesc sims) defaultTol,
        1 ≤ r ∧ d = texts.getD (r - 1) emptyStr := by
  have hne : sims ≠ [] := by
    intro h
    rw [h] at hlen
    simp at hlen
  refine ⟨zero_not_mem_takenRows hne, ?_⟩
  intro d hd
  have hd2 : d ∈ (resultRows k threshold sims (argsortDesc sims)
      defaultTol).map (fun row => texts.getD (row - 1) emptyStr) := hd
  obtain ⟨r, hrmem, hrd⟩ := List.mem_map.mp hd2
  have hr2 : r ∈ takenRows k sims (argsortDesc sims) defaultTol :=
    List.mem_of_mem_filter hrmem
  exact ⟨r, hr2, takenRows_pos hne hr2, hrd.symm⟩

/-- Witness for C3 at texts = [one passage], sims = [1, 0], k = 4: the length
precondition holds and row 0 is not among the taken rows. -/
theorem C3_witness :
    (([1, 0] : List ℚ).length = (["a"] : List String).length + 1) ∧
    0 ∉ takenRows 4 [1, 0] (argsortDesc [1, 0]) defaultTol :=
  ⟨by decide, (C3_query_excluded ["a"] 4 none [1, 0] (by decide)).1⟩

/-- C4: for all non-empty passage sets and any query, the sequence returned
by get_relevant_documents has length at most k and at most the number of
indexed passages. -/
theorem C4_length_bounds (texts : List String) (k : ℕ) (threshold : Option ℚ)
    (sims : List ℚ) (hlen : sims.length = texts.length + 1)
    (hne : texts ≠ []) :
    (getRelevantDocuments texts k threshold sims).length ≤ k ∧
    (getRelevantDocuments texts k threshold sims).length ≤ texts.length := by
  have h1 : (getRelevantDocuments texts k threshold sims).length =
      (resultRows k threshold sims (argsortDesc sims) defaultTol).length := by
    unfold getRelevantDocuments getRelevantWith
    rw [List.length_map]
  have h2 : (resultRows k threshold sims (argsortDesc sims) defaultTol).length
      ≤ (takenRows k sims (argsortDesc sims) defaultTol).length :=
    (List.filter_sublist _).length_le
  have h3 : (takenRows k sims (argsortDesc sims) defaultTol).length =
      min k ((tieBreakSwap (argsortDesc sims)).length - 1) := by
    unfold takenRows
    rw [List.length_take, List.length_drop]
    rfl
  have h4 : (tieBreakSwap (argsortDesc sims)).length = sims.length := by
    rw [tieBreakSwap_length, argsortDesc_length]
  rw [h1]
  rw [h3, h4, hlen] at h2
  constructor
  · omega
  · omega

/-- Witness for C4 at texts = [one passage], sims = [1, 0], k = 4. -/
theorem C4_witness :
    (([1, 0] : List ℚ).length = (["a"] : List String).length + 1) ∧
    ((["a"] : List String) ≠ []) ∧
    (getRelevantDocuments ["a"] 4 none [1, 0]).length ≤ 4 :=
  ⟨by decide, by decide,
    (C4_length_bounds ["a"] 4 none [1, 0] (by decide) (by decide)).1⟩

/-- C6: for a fixed query and index, the number of passages returned by
get_relevant_documents is antitone in relevancy_threshold, and the threshold
comparison is inclusive: a taken row whose normalized score equals the
threshold contributes its passage to the result. -/
theorem C6_threshold_antitone (texts : List String) (k : ℕ) (sims : List ℚ)
    (t1 t2 : ℚ) (h12 : t1 ≤ t2) :
    (getRelevantDocuments texts k (some t2) sims).length ≤
      (getRelevantDocuments texts k (some t1) sims).length ∧
    ∀ r ∈ takenRows k sims (argsortDesc sims) defaultTol,
      (normalizedSimilarities sims defaultTol).getD r 0 = t1 →
      texts.getD (r - 1) emptyStr ∈
        getRelevantDocuments texts k (some t1) sims := by
  constructor
  · unfold getRelevantDocuments getRelevantWith resultRows
    rw [List.length_map, List.length_map]
    apply List.Sublist.length_le
    apply List.monotone_filter_right
    intro a ha
    simp only [passesThreshold, decide_eq_true_eq] at ha ⊢
    have hnorm : (retrieveWith sims (argsortDesc sims) defaultTol).2 =
        normalizedSimilarities sims defaultTol := rfl
    linarith
  · intro r hr hnorm
    have hgoal : texts.getD (r - 1) emptyStr ∈
        (resultRows k (some t1) sims (argsortDesc sims) defaultTol).map
          (fun row => texts.getD (row - 1) emptyStr) := by
      apply List.mem_map.mpr
      refine ⟨r, ?_, rfl⟩
      apply List.mem_filter.mpr
      refine ⟨hr, ?_⟩
      simp only [passesThreshold, decide_eq_true_eq]
      show t1 ≤ (normalizedSimilarities sims defaultTol).getD r 0
      rw [hnorm]
    exact hgoal

/-- Witness for C6 at thresholds 0 and 1 over a one-passage index. -/
theorem C6_witness :
    ((0 : ℚ) ≤ 1) ∧
    (getRelevantDocuments ["a"] 4 (some 1) [1, 0]).length ≤
      (getRelevantDocuments ["a"] 4 (some 0) [1, 0]).length :=
  ⟨by decide, (C6_threshold_antitone ["a"] 4 [1, 0] 0 1 (by decide)).1⟩

/-- C10: for every query and non-empty index of N passages, the sorted_ix
returned by retrieve is a permutation of the row indices 0 .. N (the
tie-break swap preserves the entry multiset), and every row r taken from
sorted_ix[1 : k+1] satisfies 1 <= r <= N, is in bounds for the normalized
score lookup, and r - 1 is in bounds for the passage lookup. -/
theorem C10_perm_and_bounds (texts : List String) (k : ℕ) (sims : List ℚ)
    (tol : ℚ) (hlen : sims.length = texts.length + 1) :
    (retrieve sims tol).1.Perm (List.range (texts.length + 1)) ∧
    ∀ r ∈ takenRows k sims (argsortDesc sims) tol,
      1 ≤ r ∧ r ≤ texts.length ∧
      r < (normalizedSimilarities sims tol).length ∧
      r - 1 < texts.length := by
  have hne : sims ≠ [] := by
    intro h
    rw [h] at hlen
    simp at hlen
  have hperm := tbs_argsort_perm hne
  rw [hlen] at hperm
  refine ⟨hperm, ?_⟩
  intro r hr
  have h1 := takenRows_pos hne hr
  have h2 := takenRows_lt_length hne hr
  rw [hlen] at h2
  have h3 : (normalizedSimilarities sims tol).length = texts.length + 1 := by
    rw [normalizedSimilarities_length, hlen]
  refine ⟨h1, by omega, by omega, by omega⟩

/-- Witness for C10 at texts = [one passage], sims = [1, 0]. -/
theorem C10_witness :
    (([1, 0] : List ℚ).length = (["a"] : List String).length + 1) ∧
    (retrieve [1, 0] 1).1.Perm
      (List.range ((["a"] : List String).length + 1)) :=
  ⟨by decide, (C10_perm_and_bounds ["a"] 4 [1, 0] 1 (by decide)).1⟩

/-- When every entry sorted ahead of row 0 carries the same score as row 0
(the assumption stated in the source comment), the tie-break swap keeps the
whole sequence in non-increasing score order. -/
theorem tieBreakSwap_pairwise (sims : List ℚ) (l : List ℕ) (h0 : 0 ∈ l)
    (hpw : l.Pairwise (fun i j => sims.getD j 0 ≤ sims.getD i 0))
    (heq : ∀ i < l.indexOf 0, sims.getD (l.getD i 0) 0 = sims.getD 0 0) :
    (tieBreakSwap l).Pairwise (fun i j => sims.getD j 0 ≤ sims.getD i 0) := by
  have hz : l.indexOf 0 < l.length := List.indexOf_lt_length.mpr h0
  have hzval : l[l.indexOf 0] = 0 := List.getElem_indexOf hz
  have hLlen : (tieBreakSwap l).length = l.length := tieBreakSwap_length l
  have hbase : ∀ i j, i < j → j < l.length →
      sims.getD (l.getD j 0) 0 ≤ sims.getD (l.getD i 0) 0 := by
    intro i j hij hj
    have hi : i < l.length := lt_trans hij hj
    have h := List.pairwise_iff_getElem.mp hpw i j hi hj hij
    rw [List.getD_eq_getElem l 0 hi, List.getD_eq_getElem l 0 hj]
    exact h
  have hzscore : sims.getD (l.getD (l.indexOf 0) 0) 0 = sims.getD 0 0 := by
    rw [List.getD_eq_getElem l 0 hz, hzval]
  have hchar : ∀ p, p < l.length → (tieBreakSwap l).getD p 0 =
      (if p = 0 then 0 else if p = l.indexOf 0 then l.getD 0 0
        else l.getD p 0) :=
    fun p hp => tieBreakSwap_getD l h0 0 p hp
  have hscore_eq : ∀ p, p < l.length → p ≤ l.indexOf 0 →
      sims.getD ((tieBreakSwap l).getD p 0) 0 = sims.getD 0 0 := by
    intro p hp hpz
    rw [hchar p hp]
    by_cases hp0 : p = 0
    · rw [if_pos hp0]
    · rw [if_neg hp0]
      by_cases hpz2 : p = l.indexOf 0
      · rw [if_pos hpz2]
        exact heq 0 (by omega)
      · rw [if_neg hpz2]
        exact heq p (by omega)
  have hent : ∀ p, p < l.length → l.indexOf 0 < p →
      (tieBreakSwap l).getD p 0 = l.getD p 0 := by
    intro p hp hzp
    rw [hchar p hp, if_neg (by omega), if_neg (by omega)]
  have hscore_le : ∀ p, p < l.length →
      sims.getD ((tieBreakSwap l).getD p 0) 0 ≤ sims.getD 0 0 := by
    intro p hp
    by_cases hpz : p ≤ l.indexOf 0
    · exact le_of_eq (hscore_eq p hp hpz)
    · rw [hent p hp (by omega)]
      calc sims.getD (l.getD p 0) 0 ≤ sims.getD (l.getD (l.indexOf 0) 0) 0 :=
            hbase _ p (by omega) hp
      _ = sims.getD 0 0 := hzscore
  rw [List.pairwise_iff_getElem]
  intro i j hi hj hij
  rw [hLlen] at hi hj
  have key : sims.getD ((tieBreakSwap l).getD j 0) 0 ≤
      sims.getD ((tieBreakSwap l).getD i 0) 0 := by
    by_cases hjz : j ≤ l.indexOf 0
    · rw [hscore_eq j hj hjz, hscore_eq i hi (by omega)]
    · by_cases hiz : i ≤ l.indexOf 0
      · rw [hscore_eq i hi hiz]
        exact hscore_le j hj
      · rw [hent i hi (by omega), hent j hj (by omega)]
        exact hbase i j hij hj
  have e1 : (tieBreakSwap l).getD i 0 = (tieBreakSwap l)[i] :=
    List.getD_eq_getElem _ 0 (by rw [hLlen]; exact hi)
  have e2 : (tieBreakSwap l).getD j 0 = (tieBreakSwap l)[j] :=
    List.getD_eq_getElem _ 0 (by rw [hLlen]; exact hj)
  rw [e1, e2] at key
  exact key

/-- C5 counterexample: with decision scores sims = [5, 10, 7, 3] (query row
score 5, candidate rows scoring 10, 7, 3 — the spec itself allows a
candidate to narrowly exceed the query's score), the tie-break swap moves
the highest-scoring row 1 into the middle of the order, so the rows taken by
get_relevant_documents are [2, 1, 3] with raw scores 7, 10, 3: the returned
passages are not in descending raw-score order. -/
theorem C5_counterexample :
    resultRows 4 none [5, 10, 7, 3] (argsortDesc [5, 10, 7, 3]) defaultTol
      = [2, 1, 3] ∧
    ¬ (resultRows 4 none [5, 10, 7, 3] (argsortDesc [5, 10, 7, 3])
        defaultTol).Pairwise
      (fun i j => ([5, 10, 7, 3] : List ℚ).getD j 0 ≤
        ([5, 10, 7, 3] : List ℚ).getD i 0) := by
  constructor
  · decide
  · decide

/-- C5 amended: for any valid descending argsort of the scores — whatever
order np.argsort's unstable sort puts tied rows in — provided every row
sorted ahead of row 0 in that pre-swap order has decision score equal to
row 0's score (the score-equivalence assumption stated in the source
comment), the rows surviving the tie-break swap, truncation and the
threshold filter are pairwise in non-increasing raw-score order, and the
returned passages are exactly those rows mapped to texts[r - 1] in that
order, with no re-sorting after the filter. -/
theorem C5_amended_descending (texts : List String) (k : ℕ)
    (threshold : Option ℚ) (sims : List ℚ) (l : List ℕ) (hne : sims ≠ [])
    (hl : IsArgsortDesc sims l)
    (heq : ∀ i < l.indexOf 0, sims.getD (l.getD i 0) 0 = sims.getD 0 0) :
    (resultRows k threshold sims l defaultTol).Pairwise
      (fun i j => sims.getD j 0 ≤ sims.getD i 0) ∧
    getRelevantWith texts k threshold sims l defaultTol =
      (resultRows k threshold sims l defaultTol).map
        (fun row => texts.getD (row - 1) emptyStr) := by
  have h0 : 0 ∈ l :=
    hl.1.mem_iff.mpr (List.mem_range.mpr (List.length_pos.mpr hne))
  constructor
  · have hpw := tieBreakSwap_pairwise sims l h0 hl.2 heq
    exact List.Pairwise.sublist ((List.filter_sublist _).trans
      (takenRows_sublist k sims l defaultTol)) hpw
  · rfl

/-- Witness for the amended C5 at sims = [1, 1] with the pre-swap order
[1, 0]: the tied candidate row 1 sits ahead of the query, the prefix
score-equivalence condition holds non-vacuously, and the swap fires. -/
theorem C5_witness :
    (([1, 1] : List ℚ) ≠ []) ∧
    IsArgsortDesc [1, 1] [1, 0] ∧
    (∀ i < ([1, 0] : List ℕ).indexOf 0,
      ([1, 1] : List ℚ).getD (([1, 0] : List ℕ).getD i 0) 0 =
        ([1, 1] : List ℚ).getD 0 0) ∧
    (resultRows 4 none [1, 1] [1, 0] defaultTol).Pairwise
      (fun i j => ([1, 1] : List ℚ).getD j 0 ≤
        ([1, 1] : List ℚ).getD i 0) :=
  ⟨by decide, by decide, by decide,
    (C5_amended_descending ["a"] 4 none [1, 1] [1, 0] (by decide)
      (by decide) (by decide)).1⟩

theorem scatterGather_loop_length (embed : String → List ℚ)
    (contexts : List String) :
    ∀ (sched : List ℕ) (acc : List (Option (List ℚ))),
      (sched.foldl
        (fun a i => a.set i (some (embed (contexts.getD i emptyStr))))
        acc).length = acc.length := by
  intro sched
  induction sched with
  | nil => intro acc; rfl
  | cons s rest ih =>
    intro acc
    rw [List.foldl_cons, ih]
    simp

theorem scatterGather_loop_getD (embed : String → List ℚ)
    (contexts : List String) :
    ∀ (sched : List ℕ) (acc : List (Option (List ℚ))),
      acc.length = contexts.length →
      (∀ j ∈ sched, j < contexts.length) →
      ∀ i, i < contexts.length →
      (acc.getD i none = some (embed (contexts.getD i emptyStr)) ∨
        i ∈ sched) →
      (sched.foldl
        (fun a j => a.set j (some (embed (contexts.getD j emptyStr))))
        acc).getD i none = some (embed (contexts.getD i emptyStr)) := by
  intro sched
  induction sched with
  | nil =>
    intro acc hlen hbd i hi hcov
    rcases hcov with h | h
    · exact h
    · simp at h
  | cons s rest ih =>
    intro acc hlen hbd i hi hcov
    rw [List.foldl_cons]
    apply ih (acc.set s (some (embed (contexts.getD s emptyStr))))
      (by simp [hlen]) (fun j hj => hbd j (List.mem_cons_of_mem s hj)) i hi
    by_cases his : i = s
    · left
      subst his
      rw [List.getD_eq_getElem _ none (by simpa [hlen] using hi)]
      rw [List.getElem_set_self]
    · rcases hcov with h | h
      · left
        rw [List.getD_eq_getElem _ none (by simpa [hlen] using hi)]
        rw [List.getElem_set_ne (fun hh => his hh.symm)]
        rw [← List.getD_eq_getElem acc none (by rw [hlen]; exact hi)]
        exact h
      · rcases List.mem_cons.mp h with h2 | h2
        · exact absurd h2 his
        · right
          exact h2

/-- C7: for every sequence of texts, create_index returns a matrix with
exactly len(texts) rows whose row i is the embedding of texts[i], and the
concurrent execution modelled by scatterGather produces exactly that matrix
for every completion order of the embedding calls: ordering is by input
index, not completion time. -/
theorem C7_order_preserved (embed : String → List ℚ) (contexts : List String)
    (schedule : List ℕ)
    (hcov : ∀ i < contexts.length, i ∈ schedule)
    (hbd : ∀ j ∈ schedule, j < contexts.length) :
    scatterGather embed contexts schedule =
      (create_index embed contexts).map some ∧
    (create_index embed contexts).length = contexts.length ∧
    ∀ i < contexts.length,
      (create_index embed contexts).getD i [] =
        embed (contexts.getD i emptyStr) := by
  have hlen0 :
      (List.replicate contexts.length (none : Option (List ℚ))).length =
        contexts.length := List.length_replicate _ _
  have hglen : (scatterGather embed contexts schedule).length =
      contexts.length := by
    unfold scatterGather
    rw [scatterGather_loop_length, hlen0]
  have htlen : ((create_index embed contexts).map some).length =
      contexts.length := by
    unfold create_index
    simp
  refine ⟨?_, by unfold create_index; simp, ?_⟩
  · apply List.ext_getElem (by rw [hglen, htlen])
    intro n h1 h2
    have hn : n < contexts.length := by rw [hglen] at h1; exact h1
    have hleft : (scatterGather embed contexts schedule).getD n none =
        some (embed (contexts.getD n emptyStr)) := by
      unfold scatterGather
      exact scatterGather_loop_getD embed contexts schedule _ hlen0 hbd n hn
        (Or.inr (hcov n hn))
    have hright : ((create_index embed contexts).map some).getD n none =
        some (embed (contexts.getD n emptyStr)) := by
      unfold create_index
      rw [List.getD_eq_getElem _ none (by simpa using hn)]
      rw [List.getElem_map, List.getElem_map]
      rw [List.getD_eq_getElem contexts emptyStr hn]
    rw [← List.getD_eq_getElem _ none h1, ← List.getD_eq_getElem _ none h2,
      hleft, hright]
  · intro i hi
    unfold create_index
    rw [List.getD_eq_getElem _ _ (by simpa using hi)]
    rw [List.getElem_map]
    rw [List.getD_eq_getElem contexts emptyStr hi]

/-- Witness for C7 with two texts embedded under the reversed completion
order [1, 0]: the scatter-gather output still matches input order. -/
theorem C7_witness :
    (∀ i < (["x", "y"] : List String).length, i ∈ ([1, 0] : List ℕ)) ∧
    (∀ j ∈ ([1, 0] : List ℕ), j < (["x", "y"] : List String).length) ∧
    scatterGather (fun s => [(s.length : ℚ)]) ["x", "y"] [1, 0] =
      (create_index (fun s => [(s.length : ℚ)]) ["x", "y"]).map some :=
  ⟨by decide, by decide,
    (C7_order_preserved (fun s => [(s.length : ℚ)]) ["x", "y"] [1, 0]
      (by decide) (by decide)).1⟩

/-- C8: if a single embedding call fails during index construction, the
whole build fails with that same error propagated unchanged, and no partial
index is produced (the result is Except.error e, not an Except.ok list). -/
theorem C8_error_propagation {E V : Type} (embed : String → Except E V)
    (contexts : List String) (i : ℕ) (e : E)
    (hi : i < contexts.length)
    (herr : embed (contexts.getD i emptyStr) = Except.error e)
    (hok : ∀ j < contexts.length, j ≠ i →
      ∃ v, embed (contexts.getD j emptyStr) = Except.ok v) :
    create_index_exc embed contexts = Except.error e := by
  induction contexts generalizing i with
  | nil => simp at hi
  | cons c cs ih =>
    cases i with
    | zero =>
      have hc : embed c = Except.error e := herr
      simp [create_index_exc, hc]
    | succ i2 =>
      obtain ⟨v, hv⟩ := hok 0 (by simp) (by omega)
      have hc : embed c = Except.ok v := hv
      have htail : create_index_exc embed cs = Except.error e := by
        apply ih i2 (by simpa using hi) herr
        intro j hj hji
        exact hok (j + 1) (by simpa using hj) (by omega)
      simp [create_index_exc, hc, htail]

/-- Embedder used by the C8 witness: fails on the second text only. -/
def embedWitness : String → Except String (List ℚ) :=
  fun s => if s = "b" then Except.error ("boom") else Except.ok [0]

/-- Witness for C8: with texts [a, b] and an embedder failing on b, index
construction propagates exactly that error. -/
theorem C8_witness :
    (1 < (["a", "b"] : List String).length) ∧
    create_index_exc embedWitness ["a", "b"] = Except.error ("boom") :=
  ⟨by decide,
    C8_error_propagation embedWitness ["a", "b"] 1 ("boom") (by decide)
      (by rfl)
      (by
        intro j hj hji
        have hj2 : j < 2 := hj
        interval_cases j
        · exact ⟨[0], rfl⟩
        · exact absurd rfl hji)⟩

/-- C9 counterexample: with decision scores [10, 5, 5] (candidate rows 1 and
2 tied) and k = 1, both [0, 1, 2] and [0, 2, 1] are valid descending
argsorts of the same scores — exactly the freedom np.argsort's unstable sort
and the solver's tie behaviour leave — yet one run returns passage a and the
other passage b: exchanging score-equivalent rows does change the returned
set. -/
theorem C9_counterexample :
    IsArgsortDesc [10, 5, 5] [0, 1, 2] ∧
    IsArgsortDesc [10, 5, 5] [0, 2, 1] ∧
    getRelevantWith ["a", "b"] 1 none [10, 5, 5] [0, 1, 2] defaultTol
      = ["a"] ∧
    getRelevantWith ["a", "b"] 1 none [10, 5, 5] [0, 2, 1] defaultTol
      = ["b"] ∧
    ("a" ∈ getRelevantWith ["a", "b"] 1 none [10, 5, 5] [0, 1, 2]
      defaultTol) ∧
    ("a" ∉ getRelevantWith ["a", "b"] 1 none [10, 5, 5] [0, 2, 1]
      defaultTol) := by
  refine ⟨?_, ?_, ?_, ?_, ?_, ?_⟩ <;> decide

/-- C9 amended: when distinct rows carry distinct decision scores (no tied
rows), any two runs of the ranking — any two valid descending argsorts of
the same score vector — coincide, so get_relevant_documents returns the
same passages, in particular the same set of top-k passages; the tie-break
rule pins the query's position in both runs. -/
theorem C9_amended_deterministic (texts : List String) (k : ℕ)
    (threshold : Option ℚ) (sims : List ℚ) (tol : ℚ) (l1 l2 : List ℕ)
    (h1 : IsArgsortDesc sims l1) (h2 : IsArgsortDesc sims l2)
    (hinj : ∀ i < sims.length, ∀ j < sims.length,
      sims.getD i 0 = sims.getD j 0 → i = j) :
    getRelevantWith texts k threshold sims l1 tol =
      getRelevantWith texts k threshold sims l2 tol := by
  have hleq : l1 = l2 := by
    have hperm : l1.Perm l2 := h1.1.trans h2.1.symm
    have hstrict : ∀ (l : List ℕ), IsArgsortDesc sims l →
        l.Pairwise (fun i j => sims.getD j 0 < sims.getD i 0) := by
      intro l hl
      have hnd : l.Pairwise (fun a b : ℕ => a ≠ b) :=
        (hl.1.symm).nodup (List.nodup_range _)
      have hmem : ∀ a ∈ l, a < sims.length := fun a ha =>
        List.mem_range.mp (hl.1.mem_iff.mp ha)
      refine List.Pairwise.imp_of_mem ?_ (hl.2.and hnd)
      intro a b ha hb hab
      rcases hab with ⟨hle, hne⟩
      rcases lt_or_eq_of_le hle with hlt | heq2
      · exact hlt
      · exact absurd (hinj b (hmem b hb) a (hmem a ha) heq2).symm hne
    haveI : IsAntisymm ℕ (fun i j => sims.getD j 0 < sims.getD i 0) :=
      ⟨fun a b hab hba => absurd (lt_trans hab hba) (lt_irrefl _)⟩
    exact List.eq_of_perm_of_sorted hperm (hstrict l1 h1) (hstrict l2 h2)
  rw [hleq]

/-- Witness for the amended C9 at sims = [2, 1] (distinct scores) with the
unique valid argsort [0, 1]. -/
theorem C9_witness :
    IsArgsortDesc [2, 1] [0, 1] ∧
    (∀ i < ([2, 1] : List ℚ).length, ∀ j < ([2, 1] : List ℚ).length,
      ([2, 1] : List ℚ).getD i 0 = ([2, 1] : List ℚ).getD j 0 → i = j) ∧
    getRelevantWith ["a"] 4 none [2, 1] [0, 1] 1 =
      getRelevantWith ["a"] 4 none [2, 1] [0, 1] 1 :=
  ⟨by decide, by decide,
    C9_amended_deterministic ["a"] 4 none [2, 1] 1 [0, 1] [0, 1]
      (by decide) (by decide) (by decide)⟩

end SvmSpec
